import Mathlib

/-!
Verification of the BatmanSecurer source-mutation and key-derivation core.

This file gives a shallow embedding, in Lean 4, of the three pure cores of
the repository:

* the key & substitution-box deriver (`src/BatmanSecurer/frida_builder.py`,
  function `generate_stuff_h`, derivation part),
* the anchor patch applier (`src/BatmanSecurer/patchers/gum_quick_patcher.py`),
* the grouped permutation engine and its comment-normalization post-pass
  (`src/BatmanSecurer/patchers/shuffler.py`).

Python byte strings and text buffers are modelled as `List Nat` / `List Char`;
machine bytes are `Nat` with explicit `% 256` where the code masks with
`& 0xFF`.  The process-wide randomness source (`secrets`, `random`) and the
hash functions (`hashlib.sha256` / `hashlib.sha512`) are modelled as explicit
oracle parameters: quantifying over all oracles quantifies over all possible
sequences of random draws and all hash outputs.  Library contracts that
Python's standard library always satisfies (digest lengths, `randbelow`
bounds, `token_bytes` lengths) appear as hypotheses on the oracles where a
theorem needs them.
-/

/-! ## Generic list helpers -/

/-- Swap the entries at positions `i` and `j` of a list, mirroring the Python
idiom `xs[i], xs[j] = xs[j], xs[i]` (the right-hand side is evaluated on the
original list before either store). -/
def lswap {α : Type} [Inhabited α] (l : List α) (i j : Nat) : List α :=
  (l.set i (l.getD j default)).set j (l.getD i default)

theorem length_lswap {α : Type} [Inhabited α] (l : List α) (i j : Nat) :
    (lswap l i j).length = l.length := by
  simp [lswap]

theorem lswap_perm {α : Type} [Inhabited α] [DecidableEq α] (l : List α) (i j : Nat)
    (hi : i < l.length) (hj : j < l.length) : (lswap l i j).Perm l := by
  have hj' : j < (l.set i (l.getD j default)).length := by simpa using hj
  rw [List.perm_iff_count]
  intro b
  rw [lswap, List.count_set _ _ _ _ hj', List.count_set _ _ _ _ hi]
  have hset : (l.set i (l.getD j default))[j] = l[j] := by
    rw [List.getElem_set]
    split
    · next h => subst h; exact List.getD_eq_getElem l default hj
    · rfl
  have hcount_i : (if (l[i] == b) = true then 1 else 0) ≤ List.count b l := by
    split
    · next h => exact List.count_pos_iff.2 (by rw [← eq_of_beq h]; exact List.getElem_mem hi)
    · exact Nat.zero_le _
  rw [hset, List.getD_eq_getElem l default hj, List.getD_eq_getElem l default hi]
  omega

/-- `scatter p l repl` writes the entries of `repl`, in order, into the
positions of `l` whose entries satisfy `p`, keeping every other entry in
place.  This models the Python write-back
`for (idx, _), new_line in zip(targets, bucket): lines[idx] = new_line`
where `targets` collects the `p`-positions in increasing order. -/
def scatter {α : Type} (p : α → Bool) : List α → List α → List α
  | [], _ => []
  | a :: l, repl =>
    if p a then
      match repl with
      | [] => a :: scatter p l []
      | r :: rs => r :: scatter p l rs
    else a :: scatter p l repl

theorem scatter_perm_aux {α : Type} (p : α → Bool) :
    ∀ (l repl : List α), repl.length = (l.filter p).length →
      (scatter p l repl).Perm (repl ++ l.filter (fun a => !p a)) := by
  intro l
  induction l with
  | nil =>
    intro repl h
    simp only [List.filter_nil, List.length_nil] at h
    simp [List.length_eq_zero.1 h, scatter]
  | cons a l ih =>
    intro repl h
    by_cases hp : p a
    · rw [List.filter_cons_of_pos hp] at h
      match repl, h with
      | r :: rs, h =>
        have hlen : rs.length = (l.filter p).length := by simpa using h
        have : scatter p (a :: l) (r :: rs) = r :: scatter p l rs := by
          simp [scatter, hp]
        rw [this]
        have hfilt : (a :: l).filter (fun a => !p a) = l.filter (fun a => !p a) := by
          simp [hp]
        rw [hfilt]
        exact (ih rs hlen).cons r
    · have : scatter p (a :: l) repl = a :: scatter p l repl := by
        simp [scatter, hp]
      rw [this]
      have h' : repl.length = (l.filter p).length := by
        rwa [List.filter_cons_of_neg hp] at h
      have hfilt : (a :: l).filter (fun a => !p a) = a :: l.filter (fun a => !p a) := by
        simp [hp]
      rw [hfilt]
      exact ((ih repl h').cons a).trans List.perm_middle.symm

theorem scatter_perm {α : Type} (p : α → Bool) (l repl : List α)
    (h : repl.Perm (l.filter p)) : (scatter p l repl).Perm l := by
  refine (scatter_perm_aux p l repl h.length_eq).trans ?_
  exact (h.append_right _).trans (List.filter_append_perm p l)

/-- `l` is a permutation of its `i`-th entry consed onto `l` with the `i`-th
entry removed. -/
theorem perm_getD_cons_eraseIdx {α : Type} [Inhabited α] (l : List α) (i : Nat)
    (hi : i < l.length) : l.Perm (l.getD i default :: l.eraseIdx i) := by
  conv_lhs => rw [← List.take_append_drop i l]
  rw [← List.getElem_cons_drop l i hi, List.eraseIdx_eq_take_drop_succ,
    List.getD_eq_getElem l default hi]
  exact List.perm_middle

/-- Erasing a strictly descending list of in-range indices removes exactly the
entries at those indices (this is the Python
`for i in sorted(block_indices, reverse=True): lines.pop(i)` loop). -/
theorem foldl_eraseIdx_perm {α : Type} [Inhabited α] :
    ∀ (is : List Nat) (l : List α), is.Pairwise (· > ·) → (∀ i ∈ is, i < l.length) →
      (is.map (fun i => l.getD i default) ++ is.foldl (fun acc i => acc.eraseIdx i) l).Perm l := by
  intro is
  induction is with
  | nil => intro l _ _; simp
  | cons i rest ih =>
    intro l hpw hlt
    have hi : i < l.length := hlt i (by simp)
    have hgt : ∀ j ∈ rest, j < i := fun j hj => (List.pairwise_cons.1 hpw).1 j hj
    have hpw' : rest.Pairwise (· > ·) := (List.pairwise_cons.1 hpw).2
    have hlt' : ∀ j ∈ rest, j < (l.eraseIdx i).length := by
      intro j hj
      have : (l.eraseIdx i).length + 1 = l.length := List.length_eraseIdx_add_one hi
      have := hgt j hj
      omega
    have hgd : ∀ j ∈ rest, (l.eraseIdx i).getD j default = l.getD j default := by
      intro j hj
      have hj' : j < (l.eraseIdx i).length := hlt' j hj
      have hlen : (l.eraseIdx i).length + 1 = l.length := List.length_eraseIdx_add_one hi
      have hjl : j < l.length := by omega
      rw [List.getD_eq_getElem _ default hj', List.getD_eq_getElem _ default hjl]
      exact List.getElem_eraseIdx_of_lt l i j hj' (hgt j hj)
    have hmap : rest.map (fun j => (l.eraseIdx i).getD j default)
        = rest.map (fun j => l.getD j default) := List.map_congr_left hgd
    have ihe := ih (l.eraseIdx i) hpw' hlt'
    rw [hmap] at ihe
    have hsplit : ((i :: rest).map (fun j => l.getD j default)
          ++ (i :: rest).foldl (fun acc j => acc.eraseIdx j) l)
        = l.getD i default :: (rest.map (fun j => l.getD j default)
            ++ rest.foldl (fun acc j => acc.eraseIdx j) (l.eraseIdx i)) := by
      simp
    rw [hsplit]
    exact (ihe.cons _).trans (perm_getD_cons_eraseIdx l i hi).symm

/-- Inserting a list at position `p` by slicing, as Python's
`lines[p:p] = block`; for `p > len` this appends, exactly as Python clamps. -/
def spliceAt {α : Type} (l : List α) (p : Nat) (s : List α) : List α :=
  l.take p ++ s ++ l.drop p

theorem spliceAt_perm {α : Type} (l : List α) (p : Nat) (s : List α) :
    (spliceAt l p s).Perm (s ++ l) := by
  unfold spliceAt
  refine (List.Perm.append_right (l.drop p) List.perm_append_comm).trans ?_
  rw [List.append_assoc, List.take_append_drop]

/-! ## Key & substitution-box deriver

Shallow embedding of the derivation part of `generate_stuff_h`
(`src/BatmanSecurer/frida_builder.py`, lines 408-471).  Bytes are `Nat`
(masked with `% 256` where the code masks with `& 0xFF`).  The hash functions
and the `secrets` randomness source are an explicit oracle; `token` and `rb`
take the index of the call (calls are numbered in program order, separately
per function) so that one oracle value determines one complete sequence of
random draws. -/

structure DeriveOracle where
  sha256 : List Nat → List Nat
  sha512 : List Nat → List Nat
  /-- `token k n` models the `k`-th `secrets.token_bytes(n)` call. -/
  token : Nat → Nat → List Nat
  /-- `rb k n` models the `k`-th `secrets.randbelow(n)` call. -/
  rb : Nat → Nat → Nat

/-- `out_len = secrets.randbelow(96) + 64`. -/
def outLen (o : DeriveOracle) : Nat := o.rb 0 96 + 64

/-- `state = sha256(key_bytes + salt) + sha512(key_bytes[::-1] + noise)` with
`salt = token_bytes(randbelow(32) + 64)` and
`noise = token_bytes(randbelow(48) + 86)`. -/
def initState (o : DeriveOracle) (kb : List Nat) : List Nat :=
  o.sha256 (kb ++ o.token 0 (o.rb 1 32 + 64)) ++
    o.sha512 (kb.reverse ++ o.token 1 (o.rb 2 48 + 86))

/-- `rounds = secrets.randbelow(7) + 6`. -/
def mixRoundsCount (o : DeriveOracle) : Nat := o.rb 3 7 + 6

/-- One iteration of the mixing loop.  The pair carries (state, token-call
counter).  `kb.getD (i % kb.length) 0` models `key_bytes[i % len(key_bytes)]`;
the Python code only reaches this loop with a non-empty key (the function
returns early on a falsy key), so the cycling index is always in range
there. -/
def mixRound (o : DeriveOracle) (kb : List Nat) (st : List Nat × Nat) (r : Nat) :
    List Nat × Nat :=
  let state := st.1
  let tc := st.2
  let rndNoise := o.token tc 32
  let mix := state.enum.map (fun ib =>
    (ib.2 ^^^ rndNoise.getD (ib.1 % rndNoise.length) 0 ^^^
      kb.getD (ib.1 % kb.length) 0 ^^^ r) % 256)
  let state1 := o.sha512 (mix ++ o.token (tc + 1) 16)
  let state2 := state1 ++ o.sha256 (state1 ++ o.token (tc + 2) 8)
  (state2, tc + 3)

/-- State after all mixing rounds, with the next token-call counter (`salt`
and `noise` consumed calls 0 and 1, so the loop starts at 2). -/
def mixedState (o : DeriveOracle) (kb : List Nat) : List Nat × Nat :=
  (List.range (mixRoundsCount o)).foldl (mixRound o kb) (initState o kb, 2)

/-- The random pairwise-swap pass:
`for _ in range(len(state)//2): i, j = randbelow(len), randbelow(len); swap`.
The pair carries (state, randbelow-call counter); calls 0-3 were consumed
before this pass. -/
def swapPass (o : DeriveOracle) (state : List Nat) (rc : Nat) : List Nat × Nat :=
  (List.range (state.length / 2)).foldl
    (fun st _ =>
      let i := o.rb st.2 st.1.length
      let j := o.rb (st.2 + 1) st.1.length
      (lswap st.1 i j, st.2 + 2))
    (state, rc)

def swappedState (o : DeriveOracle) (kb : List Nat) : List Nat :=
  (swapPass o (mixedState o kb).1 4).1

/-- The stretch loop `while len(final) < out_len: final += sha512(state +
token_bytes(32))`, with fuel (the Python loop terminates because each digest
is 64 bytes; the fuel is chosen large enough that it is never exhausted under
that contract).  Returns the accumulated buffer and the token counter. -/
def stretchGo (o : DeriveOracle) (state : List Nat) (target : Nat) :
    Nat → List Nat × Nat → List Nat × Nat
  | 0, st => st
  | fuel + 1, st =>
    if st.1.length < target then
      stretchGo o state target fuel (st.1 ++ o.sha512 (state ++ o.token st.2 32), st.2 + 1)
    else st

def stretchRes (o : DeriveOracle) (kb : List Nat) : List Nat × Nat :=
  stretchGo o (swappedState o kb) (outLen o) (outLen o) ([], (mixedState o kb).2)

/-- `final = final[:out_len]`: the secret blob. -/
def secretBlob (o : DeriveOracle) (kb : List Nat) : List Nat :=
  (stretchRes o kb).1.take (outLen o)

/-- `sbox_entropy = state + token_bytes(64) + sha256(final) + sha512(key_bytes)`. -/
def sboxEntropy (o : DeriveOracle) (kb : List Nat) : List Nat :=
  swappedState o kb ++ o.token (stretchRes o kb).2 64 ++
    o.sha256 (secretBlob o kb) ++ o.sha512 kb

/-- `prng_state = sha512(sbox_entropy)`. -/
def prngState0 (o : DeriveOracle) (kb : List Nat) : List Nat :=
  o.sha512 (sboxEntropy o kb)

/-- `rounds = 5 + (prng_state[0] & 0x07)`. -/
def sboxRounds (o : DeriveOracle) (kb : List Nat) : Nat :=
  5 + ((prngState0 o kb).getD 0 0 &&& 7)

/-- `prng_byte()`: the triple carries (prng_state, prng_idx, token counter);
on exhaustion the state is re-hashed with 32 fresh random bytes and the
cursor reset (the returned byte is then the new state's byte 0 and the
cursor advances to 1). -/
def prngByte (o : DeriveOracle) (pr : List Nat × Nat × Nat) :
    Nat × (List Nat × Nat × Nat) :=
  if pr.1.length ≤ pr.2.1 then
    let ps1 := o.sha512 (pr.1 ++ o.token pr.2.2 32)
    (ps1.getD 0 0, (ps1, 1, pr.2.2 + 1))
  else
    (pr.1.getD pr.2.1 0, (pr.1, pr.2.1 + 1, pr.2.2))

/-- One Fisher-Yates step at descending index `i = 255 - k`:
`j = prng_byte() % (i + 1); sbox[i], sbox[j] = sbox[j], sbox[i]`. -/
def fyStep (o : DeriveOracle) (st : List Nat × (List Nat × Nat × Nat)) (k : Nat) :
    List Nat × (List Nat × Nat × Nat) :=
  let i := 255 - k
  let bpr := prngByte o st.2
  (lswap st.1 i (bpr.1 % (i + 1)), bpr.2)

/-- One full pass `for i in range(255, 0, -1)`. -/
def fyPass (o : DeriveOracle) (st : List Nat × (List Nat × Nat × Nat)) :
    List Nat × (List Nat × Nat × Nat) :=
  (List.range 255).foldl (fyStep o) st

/-- One round of the sbox loop: a Fisher-Yates pass followed by the
between-pass reseed `prng_state = sha512(prng_state + bytes(sbox[:64]) +
r.to_bytes(1, 'little')); prng_idx = 0`. -/
def fyRoundStep (o : DeriveOracle) (st : List Nat × (List Nat × Nat × Nat)) (r : Nat) :
    List Nat × (List Nat × Nat × Nat) :=
  let st1 := fyPass o st
  (st1.1, (o.sha512 (st1.2.1 ++ st1.1.take 64 ++ [r]), 0, st1.2.2.2))

/-- All `rounds` passes. -/
def fyAll (o : DeriveOracle) (rounds : Nat) (st : List Nat × (List Nat × Nat × Nat)) :
    List Nat × (List Nat × Nat × Nat) :=
  (List.range rounds).foldl (fyRoundStep o) st

/-- The generated substitution box: identity table shuffled by `sboxRounds`
Fisher-Yates passes. -/
def qjsSbox (o : DeriveOracle) (kb : List Nat) : List Nat :=
  (fyAll o (sboxRounds o kb)
    (List.range 256, (prngState0 o kb, 0, (stretchRes o kb).2 + 1))).1

/-- The two byte buffers the derivation produces. -/
def genCore (o : DeriveOracle) (kb : List Nat) : List Nat × List Nat :=
  (secretBlob o kb, qjsSbox o kb)

/-- The outer behaviour of `generate_stuff_h` restricted to its pure
derivation: on a falsy (empty) key the function returns before deriving
anything (`if not key: return`), producing no output. -/
def generateStuff (o : DeriveOracle) (kb : List Nat) : Option (List Nat × List Nat) :=
  if kb = [] then none else some (genCore o kb)

/-! ### Invariants of the Fisher-Yates loop -/

set_option maxRecDepth 8000

theorem fyStep_perm (o : DeriveOracle) (st : List Nat × (List Nat × Nat × Nat)) (k : Nat)
    (h : st.1.length = 256) :
    ((fyStep o st k).1).Perm st.1 ∧ (fyStep o st k).1.length = 256 := by
  have hi : 255 - k < st.1.length := by omega
  have hj : (prngByte o st.2).1 % (255 - k + 1) < st.1.length := by
    have := Nat.mod_lt (prngByte o st.2).1 (y := 255 - k + 1) (by omega)
    omega
  exact ⟨lswap_perm _ _ _ hi hj, by rw [fyStep, length_lswap, h]⟩

theorem foldl_fyStep_perm (o : DeriveOracle) :
    ∀ (ks : List Nat) (st : List Nat × (List Nat × Nat × Nat)), st.1.length = 256 →
      ((ks.foldl (fyStep o) st).1).Perm st.1 ∧ (ks.foldl (fyStep o) st).1.length = 256 := by
  intro ks
  induction ks with
  | nil => intro st h; exact ⟨List.Perm.refl _, h⟩
  | cons k ks ih =>
    intro st h
    have hstep := fyStep_perm o st k h
    have := ih (fyStep o st k) hstep.2
    exact ⟨this.1.trans hstep.1, this.2⟩

theorem fyAll_perm (o : DeriveOracle) :
    ∀ (rs : List Nat) (st : List Nat × (List Nat × Nat × Nat)), st.1.length = 256 →
      ((rs.foldl (fyRoundStep o) st).1).Perm st.1 ∧
        (rs.foldl (fyRoundStep o) st).1.length = 256 := by
  intro rs
  induction rs with
  | nil => intro st h; exact ⟨List.Perm.refl _, h⟩
  | cons r rs ih =>
    intro st h
    rw [List.foldl_cons]
    have hp := foldl_fyStep_perm o (List.range 255) st h
    have h1 : (fyRoundStep o st r).1 = ((List.range 255).foldl (fyStep o) st).1 := by
      simp only [fyRoundStep, fyPass]
    have h1l : (fyRoundStep o st r).1.length = 256 := by rw [h1]; exact hp.2
    have hrest := ih (fyRoundStep o st r) h1l
    refine ⟨hrest.1.trans ?_, hrest.2⟩
    rw [h1]
    exact hp.1

/-- C1.  For every invocation of the sbox derivation — any passphrase `kb`
and any sequence of random draws / hash outputs `o` — the resulting 256-entry
sbox is a permutation of the values `0..255`, and sorting it yields exactly
`[0, 1, ..., 255]`.  (Bijectivity is preserved by every individual swap:
`lswap_perm`.) -/
theorem sbox_is_permutation_of_range (o : DeriveOracle) (kb : List Nat) :
    (qjsSbox o kb).Perm (List.range 256) ∧
      (qjsSbox o kb).mergeSort (fun a b => decide (a ≤ b)) = List.range 256 := by
  have hperm : (qjsSbox o kb).Perm (List.range 256) := by
    have h := fyAll_perm o (List.range (sboxRounds o kb))
      (List.range 256, (prngState0 o kb, 0, (stretchRes o kb).2 + 1)) (by simp)
    simpa only [qjsSbox, fyAll] using h.1
  refine ⟨hperm, ?_⟩
  have hms : ((qjsSbox o kb).mergeSort (fun a b => decide (a ≤ b))).Perm (List.range 256) :=
    (List.mergeSort_perm _ _).trans hperm
  have hsorted : List.Sorted (· ≤ ·) ((qjsSbox o kb).mergeSort (fun a b => decide (a ≤ b))) := by
    have h := @List.sorted_mergeSort Nat (fun a b => decide (a ≤ b))
      (fun a b c hab hbc => by
        simp only [decide_eq_true_eq] at hab hbc ⊢; omega)
      (fun a b => by
        simp only [Bool.or_eq_true, decide_eq_true_eq]; omega)
      (qjsSbox o kb)
    exact h.imp (fun hab => by simpa using hab)
  exact List.eq_of_perm_of_sorted hms hsorted (List.sorted_le_range 256)

/-! ### Blob length and totality -/

theorem stretchGo_length (o : DeriveOracle) (state : List Nat) (target : Nat)
    (h512 : ∀ b, (o.sha512 b).length = 64) :
    ∀ (fuel : Nat) (st : List Nat × Nat), target ≤ st.1.length + 64 * fuel →
      target ≤ (stretchGo o state target fuel st).1.length := by
  intro fuel
  induction fuel with
  | zero => intro st h; simpa [stretchGo] using h
  | succ fuel ih =>
    intro st h
    rw [stretchGo]
    split
    · refine ih _ ?_
      have : (st.1 ++ o.sha512 (state ++ o.token st.2 32)).length = st.1.length + 64 := by
        rw [List.length_append, h512]
      rw [this]
      omega
    · next hlt => omega

/-- C4.  Every derivation produces a secret blob whose length satisfies
`64 ≤ len < 160`: the target length is `64 + randbelow(96)`, the stretch loop
reaches at least that length (each digest adds 64 bytes), and the blob is
truncated to exactly the target. -/
theorem secret_blob_length_bounds (o : DeriveOracle)
    (h512 : ∀ b, (o.sha512 b).length = 64)
    (hrb : ∀ k n, 0 < n → o.rb k n < n)
    (kb blob sbox : List Nat) (h : generateStuff o kb = some (blob, sbox)) :
    64 ≤ blob.length ∧ blob.length < 160 := by
  have hblob : blob = secretBlob o kb := by
    rw [generateStuff] at h
    split at h
    · exact absurd h (by simp)
    · have hpair : genCore o kb = (blob, sbox) := Option.some.inj h
      have := congrArg Prod.fst hpair
      simpa [genCore] using this.symm
  have hstretch : outLen o ≤ (stretchRes o kb).1.length := by
    refine stretchGo_length o _ _ h512 (outLen o) _ ?_
    have h1 : 1 * outLen o ≤ 64 * outLen o :=
      Nat.mul_le_mul_right (outLen o) (by omega)
    simpa using h1
  have hlen : blob.length = outLen o := by
    rw [hblob, secretBlob, List.length_take]
    omega
  have hb : o.rb 0 96 < 96 := hrb 0 96 (by omega)
  rw [hlen, outLen]
  omega

/-- A contract-respecting oracle made of constant draws: every digest has the
correct length, `token k n` returns `n` bytes and `randbelow` returns 0. -/
def zeroOracle : DeriveOracle where
  sha256 := fun _ => List.replicate 32 0
  sha512 := fun _ => List.replicate 64 0
  token := fun _ n => List.replicate n 0
  rb := fun _ _ => 0

/-- Witness for C4 at a concrete oracle and the one-byte passphrase `[107]`
(the UTF-8 bytes of `"k"`). -/
theorem secret_blob_length_bounds_witness :
    64 ≤ (genCore zeroOracle [107]).1.length ∧ (genCore zeroOracle [107]).1.length < 160 :=
  secret_blob_length_bounds zeroOracle
    (fun b => by simp [zeroOracle])
    (fun k n hn => by simpa [zeroOracle] using hn)
    [107] (genCore zeroOracle [107]).1 (genCore zeroOracle [107]).2
    (by simp [generateStuff])

/-- C5 counterexample.  With the empty passphrase the code takes the early
`if not key: return` branch: the derivation produces no output at all
(`none`, never `some` blob-and-sbox pair), contradicting the claim that an
empty passphrase still produces both a secret blob and an sbox. -/
theorem empty_passphrase_produces_no_output :
    generateStuff zeroOracle [] = none := by
  rfl

/-- C5 amended.  For every non-empty passphrase the derivation completes and
produces both a secret blob and an sbox (the deriver has no internal failure
condition on that domain); the empty passphrase instead makes
`generate_stuff_h` return before deriving anything. -/
theorem derivation_total_of_nonempty (o : DeriveOracle) (kb : List Nat) (h : kb ≠ []) :
    ∃ blob sbox : List Nat, generateStuff o kb = some (blob, sbox) :=
  ⟨secretBlob o kb, qjsSbox o kb, by simp [generateStuff, h, genCore]⟩

/-- Witness for the amended C5 at a concrete oracle and passphrase. -/
theorem derivation_total_of_nonempty_witness :
    ∃ blob sbox : List Nat, generateStuff zeroOracle [107] = some (blob, sbox) :=
  derivation_total_of_nonempty zeroOracle [107] (by simp)

/-- C7 amended.  The number of Fisher-Yates passes is `5 + (prng_state[0] &
0x07)`, which lies in `[5, 13)` — that is, in `5..12` inclusive, matching the
code comment `# 5-12 rounds` — not in `[5, 12)` as the specification
claims. -/
theorem sbox_rounds_in_5_to_12 (o : DeriveOracle) (kb : List Nat) :
    5 ≤ sboxRounds o kb ∧ sboxRounds o kb < 13 := by
  have h : (prngState0 o kb).getD 0 0 &&& 7 ≤ 7 := Nat.and_le_right
  rw [sboxRounds]
  omega

/-- A contract-respecting oracle whose digests start with byte 7. -/
def sevenOracle : DeriveOracle where
  sha256 := fun _ => 7 :: List.replicate 31 0
  sha512 := fun _ => 7 :: List.replicate 63 0
  token := fun _ n => List.replicate n 0
  rb := fun _ _ => 0

/-- C7 counterexample.  When the keystream seed's first byte has all three
low bits set, the pass count is `5 + 7 = 12`, which violates the claimed
bound `rounds < 12`. -/
theorem sbox_rounds_can_reach_12 :
    sboxRounds sevenOracle [107] = 12 ∧ ¬ (sboxRounds sevenOracle [107] < 12) := by
  have h : sboxRounds sevenOracle [107] = 12 := by
    rw [sboxRounds]
    norm_num [prngState0, sevenOracle]
  exact ⟨h, by omega⟩

/-! ## Anchor patch applier

Shallow embedding of `src/BatmanSecurer/patchers/gum_quick_patcher.py`.
Text buffers are `List Char`; Python's substring test `pat in text` is
`pat <:+: text` (`List.IsInfix`), `str.find` is `findSub` (with `Option`
instead of `-1`), and each `die(...)` call is an error constructor.  Braces
and apostrophes inside the embedded C snippets are written with `\x7b`,
`\x7d` and `\x27` escapes; the characters are identical to the source. -/

def entryToAdd : List Char :=
  ("  JS_CFUNC_DEF (\"loadBytecode\", 0, gumjs_script_load_bytecode),\n").toList

def declareLine : List Char :=
  ("GUMJS_DECLARE_FUNCTION (gumjs_script_load_bytecode)\n").toList

def funcBodyVariant1 : List Char :=
  ("\n    name_copy = g_strdup(name);\n    g_hash_table_insert(\n            es_assets,\n            name_copy,\n            gum_es_asset_new(name_copy, NULL, 0, NULL)\n    );\n").toList

def funcBodyVariant2 : List Char :=
  ("\n    name_copy = g_strdup(name);\n    g_hash_table_insert(\n        es_assets,\n        name_copy,\n        gum_es_asset_new_take(name_copy, NULL, 0)\n    );\n").toList

def funcHead : List Char :=
  ("\nGUMJS_DEFINE_FUNCTION (gumjs_script_load_bytecode)\n\x7b\n    GHashTable * es_assets = core->program->es_assets;\n    const gchar * name;\n    JSValue byte_val, perform_init, module;\n    gchar * name_copy;\n    GumQuickModuleInitOperation * op;\n    GSource * gsource;\n\n    if (!_gum_quick_args_parse(args, \"sOF\", &name, &byte_val, &perform_init))\n        return JS_EXCEPTION;\n\n    if (g_hash_table_contains(es_assets, name))\n        return _gum_quick_throw(ctx, \"module \x27%s\x27 already exists\", name);\n\n    uint8_t *buf = NULL;\n    size_t buf_len = 0;\n\n    buf = JS_GetArrayBuffer(ctx, &buf_len, byte_val);\n\n    if (buf == NULL) \x7b\n        size_t byte_offset = 0;\n        size_t byte_length = 0;\n        size_t bytes_per_elem = 0;\n\n        JSValue ab = JS_GetTypedArrayBuffer(\n                ctx,\n                byte_val,\n                &byte_offset,\n                &byte_length,\n                &bytes_per_elem\n        );\n\n        if (JS_IsException(ab)) \x7b\n            return _gum_quick_throw(ctx,\n                \"expected ArrayBuffer or TypedArray containing QuickJS bytecode\");\n        \x7d\n\n        size_t abuf_len = 0;\n        uint8_t *abuf = JS_GetArrayBuffer(ctx, &abuf_len, ab);\n        JS_FreeValue(ctx, ab);\n\n        if (abuf == NULL) \x7b\n            return _gum_quick_throw(ctx,\n                \"invalid TypedArray: could not get underlying ArrayBuffer\");\n        \x7d\n\n        buf = abuf + byte_offset;\n        buf_len = byte_length;\n    \x7d\n\n    module = JS_ReadObject(\n            ctx,\n            buf,\n            buf_len,\n            JS_READ_OBJ_BYTECODE | JS_READ_OBJ_REFERENCE | JS_READ_OBJ_SAB\n    );\n\n    if (JS_IsException(module)) \x7b\n        return _gum_quick_script_rethrow_parse_error_with_decorations(\n                core->script, ctx, name);\n    \x7d\n").toList

def funcTail : List Char :=
  ("\n    op = g_slice_new(GumQuickModuleInitOperation);\n    op->module = module;\n    op->perform_init = JS_DupValue(ctx, perform_init);\n    op->core = core;\n\n    gsource = g_idle_source_new();\n    g_source_set_callback(\n            gsource,\n            (GSourceFunc) gum_quick_core_init_module,\n            op,\n            NULL\n    );\n    g_source_attach(\n            gsource,\n            gum_script_scheduler_get_js_context(core->scheduler)\n    );\n    g_source_unref(gsource);\n\n    _gum_quick_core_pin(core);\n\n    return JS_UNDEFINED;\n\x7d\n").toList

/-- `build_function(variant_body)`: head, body, tail concatenated, then
`.lstrip("\n")`. -/
def buildFunction (variantBody : List Char) : List Char :=
  (funcHead ++ variantBody ++ funcTail).dropWhile (fun c => c == '\n')

def takeMarker : List Char := ("gum_es_asset_new_take").toList

def esMarker : List Char := ("gum_es_asset_new").toList

def entriesMarker : List Char :=
  ("static const JSCFunctionListEntry gumjs_script_entries =").toList

def declAnchor : List Char :=
  ("GUMJS_DECLARE_FUNCTION (gumjs_script_unbind_weak)").toList

def funcAnchor : List Char :=
  ("GUMJS_DEFINE_FUNCTION (gumjs_script_unbind_weak)").toList

def defineMarker : List Char :=
  ("GUMJS_DEFINE_FUNCTION (gumjs_script_load_bytecode)").toList

def nlTok : List Char := ['\n']

def obTok : List Char := ['\x7b']

/-- Forward scan for the first occurrence of `pat`, carrying the absolute
index `i` of the head of the remaining text. -/
def findSubGo (pat : List Char) : List Char → Nat → Option Nat
  | [], i => if pat = [] then some i else none
  | c :: cs, i => if pat.isPrefixOf (c :: cs) then some i else findSubGo pat cs (i + 1)

/-- `text.find(pat, start)`, with `none` for Python's `-1`. -/
def findSub (pat text : List Char) (start : Nat) : Option Nat :=
  findSubGo pat (text.drop start) start

/-- The scanning loop of `find_matching_brace`: absolute index and current
nesting depth; returns the index of the closing brace of the block. -/
def fmbGo : List Char → Nat → Nat → Option Nat
  | [], _, _ => none
  | c :: cs, i, depth =>
    if c = '\x7b' then fmbGo cs (i + 1) (depth + 1)
    else if c = '\x7d' then
      if depth = 1 then some i else fmbGo cs (i + 1) (depth - 1)
    else fmbGo cs (i + 1) depth

/-- `find_matching_brace(text, open_pos)` scans from `open_pos + 1` at depth
1.  Callers pass `start = open_pos + 1`, and `start = 0` when the opening
brace search returned Python's `-1` (so `open_pos + 1 = 0`). -/
def fmbFrom (text : List Char) (start : Nat) : Option Nat :=
  fmbGo (text.drop start) start 1

inductive Variant | v1 | v2
deriving DecidableEq

/-- One constructor per `die(...)` site of the patcher's `main`. -/
inductive PatchErr
  | variantUndetectable
  | entriesAnchorNotFound
  | entriesOpenBraceNotFound
  | entriesCloseBraceNotFound
  | declAnchorNotFound
  | funcAnchorNotFound
  | funcCloseNotFound
deriving DecidableEq

/-- `detect_variant`: the `_take` marker is checked first. -/
def detectVariant (text : List Char) : Except PatchErr Variant :=
  if takeMarker <:+: text then .ok .v2
  else if esMarker <:+: text then .ok .v1
  else .error .variantUndetectable

/-- Patch 1: insert the `JS_CFUNC_DEF` entry just before the closing brace
of the `gumjs_script_entries` initializer, unless it is already present. -/
def patch1 (text : List Char) : Except PatchErr (List Char) :=
  if entryToAdd <:+: text then .ok text
  else
    match findSub entriesMarker text 0 with
    | none => .error .entriesAnchorNotFound
    | some m =>
      match findSub obTok text m with
      | none => .error .entriesOpenBraceNotFound
      | some ob =>
        match fmbFrom text (ob + 1) with
        | none => .error .entriesCloseBraceNotFound
        | some cb => .ok (spliceAt text cb entryToAdd)

/-- `text.find("\n", idx) + 1`: insertion offset of patch 2 (0 when the
search returns the Python sentinel `-1`). -/
def patch2InsertPos (text : List Char) (idx : Nat) : Nat :=
  match findSub nlTok text idx with
  | some k => k + 1
  | none => 0

/-- Patch 2: insert the declaration line right after the newline that follows
the `unbind_weak` declaration anchor. -/
def patch2 (text : List Char) : Except PatchErr (List Char) :=
  if declareLine <:+: text then .ok text
  else
    match findSub declAnchor text 0 with
    | none => .error .declAnchorNotFound
    | some idx => .ok (spliceAt text (patch2InsertPos text idx) declareLine)

/-- `text.find("\x7b", idx) + 1`: where the brace scan of patch 3 starts
(0 when the search returns the Python sentinel `-1`, since `-1 + 1 = 0`). -/
def patch3Start (text : List Char) (idx : Nat) : Nat :=
  match findSub obTok text idx with
  | some k => k + 1
  | none => 0

/-- Patch 3: insert `"\n\n" + function_impl + "\n"` right after the closing
brace of the `unbind_weak` function body, unless the definition marker is
already present. -/
def patch3 (impl : List Char) (text : List Char) : Except PatchErr (List Char) :=
  if defineMarker <:+: text then .ok text
  else
    match findSub funcAnchor text 0 with
    | none => .error .funcAnchorNotFound
    | some idx =>
      match fmbFrom text (patch3Start text idx) with
      | none => .error .funcCloseNotFound
      | some cb => .ok (spliceAt text (cb + 1) (nlTok ++ nlTok ++ impl ++ nlTok))

/-- The pure core of the patcher's `main`: detect the variant, build the
function text, apply the three patches in order.  Any `die(...)` aborts
before the file is written back, so an error leaves the original buffer
unchanged. -/
def applyPatches (text : List Char) : Except PatchErr (List Char) :=
  match detectVariant text with
  | .error e => .error e
  | .ok v =>
    match patch1 text with
    | .error e => .error e
    | .ok t1 =>
      match patch2 t1 with
      | .error e => .error e
      | .ok t2 =>
        patch3 (buildFunction
          (match v with
            | .v1 => funcBodyVariant1
            | .v2 => funcBodyVariant2)) t2

/-! ### Facts about the scanning primitives -/

theorem findSubGo_spec (pat : List Char) :
    ∀ (l : List Char) (i k : Nat), findSubGo pat l i = some k →
      ∃ m, k = i + m ∧ pat <+: l.drop m := by
  intro l
  induction l with
  | nil =>
    intro i k h
    rw [findSubGo] at h
    split at h
    · next hp =>
      have hik := Option.some.inj h
      exact ⟨0, by omega, by simp [hp]⟩
    · exact absurd h (by simp)
  | cons c cs ih =>
    intro i k h
    rw [findSubGo] at h
    split at h
    · next hp =>
      refine ⟨0, by simpa using (Option.some.inj h).symm, ?_⟩
      simpa using List.isPrefixOf_iff_prefix.1 hp
    · obtain ⟨m, hm, hpre⟩ := ih (i + 1) k h
      exact ⟨m + 1, by omega, by simpa using hpre⟩

theorem findSub_spec (pat text : List Char) (start k : Nat)
    (h : findSub pat text start = some k) : pat <+: text.drop k ∧ start ≤ k := by
  obtain ⟨m, hm, hpre⟩ := findSubGo_spec pat (text.drop start) start k h
  rw [List.drop_drop] at hpre
  exact ⟨hm ▸ hpre, by omega⟩

theorem findSub_occurs (pat text : List Char) (start k : Nat)
    (h : findSub pat text start = some k) : pat <:+: text := by
  exact ((findSub_spec pat text start k h).1.isInfix).trans
    ((List.drop_suffix k text).isInfix)

theorem findSub_single (c : Char) (text : List Char) (start k : Nat)
    (h : findSub [c] text start = some k) :
    k < text.length ∧ text.getD k ' ' = c := by
  obtain ⟨hpre, _⟩ := findSub_spec [c] text start k h
  obtain ⟨rest, hrest⟩ := hpre
  have hklen : k < text.length := by
    have := congrArg List.length hrest
    simp only [List.length_cons, List.length_drop, List.length_append] at this
    omega
  refine ⟨hklen, ?_⟩
  have h0 : (text.drop k).getD 0 ' ' = c := by rw [← hrest]; rfl
  have hlen0 : 0 < (text.drop k).length := by
    rw [List.length_drop]; omega
  rw [List.getD_eq_getElem _ _ hlen0, List.getElem_drop] at h0
  rw [List.getD_eq_getElem _ _ (by omega : k < text.length)]
  simpa using h0

theorem fmbGo_spec :
    ∀ (l : List Char) (i d k : Nat), fmbGo l i d = some k →
      ∃ m, k = i + m ∧ m < l.length ∧ l.getD m ' ' = '\x7d' := by
  intro l
  induction l with
  | nil => intro i d k h; exact absurd h (by simp [fmbGo])
  | cons c cs ih =>
    intro i d k h
    rw [fmbGo] at h
    split at h
    · obtain ⟨m, hm, hlt, hc⟩ := ih (i + 1) (d + 1) k h
      exact ⟨m + 1, by omega, by simp; omega, by simpa using hc⟩
    · next hob =>
      split at h
      · split at h
        · next hcb _ =>
          refine ⟨0, by simpa using (Option.some.inj h).symm, by simp, ?_⟩
          simpa using hcb
        · obtain ⟨m, hm, hlt, hc⟩ := ih (i + 1) (d - 1) k h
          exact ⟨m + 1, by omega, by simp; omega, by simpa using hc⟩
      · obtain ⟨m, hm, hlt, hc⟩ := ih (i + 1) d k h
        exact ⟨m + 1, by omega, by simp; omega, by simpa using hc⟩

theorem fmbFrom_spec (text : List Char) (start k : Nat)
    (h : fmbFrom text start = some k) :
    k < text.length ∧ text.getD k ' ' = '\x7d' := by
  obtain ⟨m, hm, hlt, hc⟩ := fmbGo_spec (text.drop start) start 1 k h
  rw [List.length_drop] at hlt
  subst hm
  have hklen : start + m < text.length := by omega
  refine ⟨hklen, ?_⟩
  have hm' : m < (text.drop start).length := by rw [List.length_drop]; omega
  rw [List.getD_eq_getElem _ _ hm', List.getElem_drop] at hc
  rw [List.getD_eq_getElem _ _ hklen]
  exact hc

/-! ### Insertion preserves substring occurrences -/

/-- Inserting at a position outside a given occurrence keeps the occurrence
intact. -/
theorem infix_spliceAt_of_outside (L s : List Char) (u v : List Char) (p : Nat)
    (hp : p ≤ u.length ∨ u.length + L.length ≤ p) :
    L <:+: spliceAt (u ++ L ++ v) p s := by
  rcases hp with hp | hp
  · have hp' : p ≤ (u ++ L).length := by simp only [List.length_append]; omega
    have ht : List.take p (u ++ L ++ v) = List.take p u := by
      rw [List.take_append_of_le_length hp', List.take_append_of_le_length hp]
    have hd : List.drop p (u ++ L ++ v) = List.drop p u ++ L ++ v := by
      rw [List.drop_append_of_le_length hp', List.drop_append_of_le_length hp]
    exact ⟨List.take p u ++ s ++ List.drop p u, v, by
      rw [spliceAt, ht, hd]; simp [List.append_assoc]⟩
  · have hlen : (u ++ L).length ≤ p := by simp only [List.length_append]; omega
    have ht : List.take p (u ++ L ++ v) = (u ++ L) ++ List.take (p - (u ++ L).length) v := by
      rw [List.take_append_eq_append_take, List.take_of_length_le hlen]
    have hd : List.drop p (u ++ L ++ v) = List.drop (p - (u ++ L).length) v := by
      rw [List.drop_append_eq_append_drop, List.drop_eq_nil_of_le hlen, List.nil_append]
    exact ⟨u, List.take (p - (u ++ L).length) v ++ s ++ List.drop (p - (u ++ L).length) v, by
      rw [spliceAt, ht, hd]; simp [List.append_assoc]⟩

/-- `s` itself is always an infix of the spliced result. -/
theorem infix_spliceAt_self (L s t : List Char) (p : Nat) (h : L <:+: s) :
    L <:+: spliceAt t p s :=
  h.trans ⟨t.take p, t.drop p, rfl⟩

/-- Insertion at position 0 or right after a character `c` that does not occur
in `L.dropLast` preserves every occurrence of `L`. -/
theorem infix_spliceAt_after_char (L s t : List Char) (p : Nat) (c : Char)
    (hL : L <:+: t) (hne : L ≠ [])
    (hp : p = 0 ∨ (0 < p ∧ p - 1 < t.length ∧ t.getD (p - 1) ' ' = c))
    (hc : c ∉ L.dropLast) : L <:+: spliceAt t p s := by
  obtain ⟨u, v, huv⟩ := hL
  subst huv
  rcases le_or_lt p u.length with hle | hgt
  · exact infix_spliceAt_of_outside L s u v p (Or.inl hle)
  rcases le_or_lt (u.length + L.length) p with hge | hlt
  · exact infix_spliceAt_of_outside L s u v p (Or.inr hge)
  exfalso
  rcases hp with rfl | ⟨hpos, hplen, hchar⟩
  · omega
  have hq : p - 1 - u.length < L.length - 1 := by omega
  have hLpos : 0 < L.length := List.length_pos.2 hne
  have hqL : p - 1 - u.length < L.length := by omega
  have hul : u.length ≤ p - 1 := by omega
  have hgd : (u ++ L ++ v).getD (p - 1) ' ' = L[p - 1 - u.length] := by
    rw [List.getD_eq_getElem _ _ hplen]
    rw [List.getElem_append_left
      (by simp only [List.length_append]; omega : p - 1 < (u ++ L).length)]
    exact List.getElem_append_right (by omega : u.length ≤ p - 1)
  have hcL : L[p - 1 - u.length] = c := by rw [← hgd, hchar]
  apply hc
  have hdr : p - 1 - u.length < L.dropLast.length := by
    rw [List.length_dropLast]; omega
  have : L.dropLast[p - 1 - u.length] = L[p - 1 - u.length] :=
    List.getElem_dropLast L _ hdr
  rw [← hcL, ← this]
  exact List.getElem_mem hdr

/-- Insertion directly at the position of a character `c` that does not occur
in `L.drop 1` preserves every occurrence of `L`. -/
theorem infix_spliceAt_at_char (L s t : List Char) (p : Nat) (c : Char)
    (hL : L <:+: t) (hplen : p < t.length) (hchar : t.getD p ' ' = c)
    (hc : c ∉ L.drop 1) : L <:+: spliceAt t p s := by
  obtain ⟨u, v, huv⟩ := hL
  subst huv
  rcases le_or_lt p u.length with hle | hgt
  · exact infix_spliceAt_of_outside L s u v p (Or.inl hle)
  rcases le_or_lt (u.length + L.length) p with hge | hlt
  · exact infix_spliceAt_of_outside L s u v p (Or.inr hge)
  exfalso
  have hqL : p - u.length < L.length := by omega
  have hgd : (u ++ L ++ v).getD p ' ' = L[p - u.length] := by
    rw [List.getD_eq_getElem _ _ hplen]
    rw [List.getElem_append_left
      (by simp only [List.length_append]; omega : p < (u ++ L).length)]
    exact List.getElem_append_right (by omega : u.length ≤ p)
  have hcL : L[p - u.length] = c := by rw [← hgd, hchar]
  apply hc
  have hdr : p - u.length - 1 < (L.drop 1).length := by
    rw [List.length_drop]; omega
  have : (L.drop 1)[p - u.length - 1] = L[p - u.length] := by
    rw [List.getElem_drop]
    congr 1
    omega
  rw [← hcL, ← this]
  exact List.getElem_mem hdr

/-! ### Per-patch facts -/

theorem esMarker_le_take : esMarker <+: takeMarker := by decide

theorem patch1_ensures (t t' : List Char) (h : patch1 t = .ok t') :
    entryToAdd <:+: t' := by
  rw [patch1] at h
  split at h
  · next hin => rw [← Except.ok.inj h]; exact hin
  · split at h
    · exact absurd h (by simp)
    · split at h
      · exact absurd h (by simp)
      · split at h
        · exact absurd h (by simp)
        · rw [← Except.ok.inj h]
          exact infix_spliceAt_self _ _ _ _ ⟨[], [], by simp⟩

theorem patch1_preserves (L t t' : List Char)
    (hcb : '\x7d' ∉ L.drop 1) (hL : L <:+: t) (h : patch1 t = .ok t') :
    L <:+: t' := by
  rw [patch1] at h
  split at h
  · rw [← Except.ok.inj h]; exact hL
  · split at h
    · exact absurd h (by simp)
    · split at h
      · exact absurd h (by simp)
      · split at h
        · exact absurd h (by simp)
        · next cb hfmb =>
          obtain ⟨hlt, hch⟩ := fmbFrom_spec t _ cb hfmb
          rw [← Except.ok.inj h]
          exact infix_spliceAt_at_char L entryToAdd t cb '\x7d' hL hlt hch hcb

theorem patch2_ensures (t t' : List Char) (h : patch2 t = .ok t') :
    declareLine <:+: t' := by
  rw [patch2] at h
  split at h
  · next hin => rw [← Except.ok.inj h]; exact hin
  · split at h
    · exact absurd h (by simp)
    · rw [← Except.ok.inj h]
      exact infix_spliceAt_self _ _ _ _ ⟨[], [], by simp⟩

theorem patch2_preserves (L t t' : List Char) (hne : L ≠ [])
    (hnl : '\n' ∉ L.dropLast) (hL : L <:+: t) (h : patch2 t = .ok t') :
    L <:+: t' := by
  rw [patch2] at h
  split at h
  · rw [← Except.ok.inj h]; exact hL
  · split at h
    · exact absurd h (by simp)
    · next idx hidx =>
      rw [← Except.ok.inj h]
      cases hf : findSub nlTok t idx with
      | some k =>
        obtain ⟨hklt, hkch⟩ := findSub_single '\n' t idx k hf
        simp only [patch2InsertPos, hf]
        refine infix_spliceAt_after_char L declareLine t (k + 1) '\n' hL hne
          (Or.inr ⟨by omega, ?_, ?_⟩) hnl
        · simpa using hklt
        · simpa using hkch
      | none =>
        simp only [patch2InsertPos, hf]
        exact infix_spliceAt_after_char L declareLine t 0 '\n' hL hne (Or.inl rfl) hnl

theorem patch3_ensures (impl t t' : List Char) (himpl : defineMarker <:+: impl)
    (h : patch3 impl t = .ok t') : defineMarker <:+: t' := by
  rw [patch3] at h
  split at h
  · next hin => rw [← Except.ok.inj h]; exact hin
  · split at h
    · exact absurd h (by simp)
    · split at h
      · exact absurd h (by simp)
      · rw [← Except.ok.inj h]
        refine infix_spliceAt_self _ _ _ _ ?_
        exact himpl.trans ⟨nlTok ++ nlTok, nlTok, rfl⟩

theorem patch3_preserves (L impl t t' : List Char) (hne : L ≠ [])
    (hcb : '\x7d' ∉ L.dropLast) (hL : L <:+: t) (h : patch3 impl t = .ok t') :
    L <:+: t' := by
  rw [patch3] at h
  split at h
  · rw [← Except.ok.inj h]; exact hL
  · split at h
    · exact absurd h (by simp)
    · split at h
      · exact absurd h (by simp)
      · next cb hfmb =>
        obtain ⟨hlt, hch⟩ := fmbFrom_spec t _ cb hfmb
        rw [← Except.ok.inj h]
        refine infix_spliceAt_after_char L _ t (cb + 1) '\x7d' hL hne
          (Or.inr ⟨by omega, ?_, ?_⟩) hcb
        · simpa using hlt
        · simpa using hch

theorem detectVariant_marker (t : List Char) (v : Variant)
    (h : detectVariant t = .ok v) : esMarker <:+: t := by
  rw [detectVariant] at h
  split at h
  · next htake => exact (esMarker_le_take.isInfix).trans htake
  · split at h
    · next hes => exact hes
    · exact absurd h (by simp)

/-! ### Character-content facts used for occurrence preservation -/

theorem entry_ne_nil : entryToAdd ≠ [] := by decide

theorem entry_no_brace_tail : '\x7d' ∉ entryToAdd.drop 1 := by decide

theorem entry_no_nl_dropLast : '\n' ∉ entryToAdd.dropLast := by decide

theorem entry_no_brace_dropLast : '\x7d' ∉ entryToAdd.dropLast := by decide

theorem declare_ne_nil : declareLine ≠ [] := by decide

theorem declare_no_brace_dropLast : '\x7d' ∉ declareLine.dropLast := by decide

theorem esMarker_ne_nil : esMarker ≠ [] := by decide

theorem esMarker_no_brace_tail : '\x7d' ∉ esMarker.drop 1 := by decide

theorem esMarker_no_nl_dropLast : '\n' ∉ esMarker.dropLast := by decide

theorem esMarker_no_brace_dropLast : '\x7d' ∉ esMarker.dropLast := by decide

theorem defineMarker_in_build1 : defineMarker <:+: buildFunction funcBodyVariant1 := by decide

theorem defineMarker_in_build2 : defineMarker <:+: buildFunction funcBodyVariant2 := by decide

/-! ### Idempotence of the patch applier -/

/-- After a successful run, all three detection literals and the allocator
marker occur in the output: each patch either found its literal already
present or inserted it, and no later insertion can split an occurrence
(insertions happen at a brace or right after a newline, and none of the
literals contains a brace or an interior newline at the relevant offsets). -/
theorem applyPatches_literals (buf out : List Char) (h : applyPatches buf = .ok out) :
    esMarker <:+: out ∧ entryToAdd <:+: out ∧ declareLine <:+: out ∧
      defineMarker <:+: out := by
  rw [applyPatches] at h
  split at h
  · exact absurd h (by simp)
  · next v hv =>
    split at h
    · exact absurd h (by simp)
    · next t1 h1 =>
      split at h
      · exact absurd h (by simp)
      · next t2 h2 =>
        have hes0 : esMarker <:+: buf := detectVariant_marker buf v hv
        have hes1 := patch1_preserves esMarker buf t1 esMarker_no_brace_tail hes0 h1
        have hes2 := patch2_preserves esMarker t1 t2 esMarker_ne_nil
          esMarker_no_nl_dropLast hes1 h2
        have hes3 := patch3_preserves esMarker _ t2 out esMarker_ne_nil
          esMarker_no_brace_dropLast hes2 h
        have he1 := patch1_ensures buf t1 h1
        have he2 := patch2_preserves entryToAdd t1 t2 entry_ne_nil
          entry_no_nl_dropLast he1 h2
        have he3 := patch3_preserves entryToAdd _ t2 out entry_ne_nil
          entry_no_brace_dropLast he2 h
        have hd2 := patch2_ensures t1 t2 h2
        have hd3 := patch3_preserves declareLine _ t2 out declare_ne_nil
          declare_no_brace_dropLast hd2 h
        have hm3 : defineMarker <:+: out := by
          refine patch3_ensures _ t2 out ?_ h
          cases v
          · exact defineMarker_in_build1
          · exact defineMarker_in_build2
        exact ⟨hes3, he3, hd3, hm3⟩

/-- Conversely, a buffer that already carries the marker and all three
literals is returned unchanged: detection succeeds and every patch takes its
already-present branch. -/
theorem applyPatches_of_literals (t : List Char)
    (hes : esMarker <:+: t) (he : entryToAdd <:+: t) (hd : declareLine <:+: t)
    (hm : defineMarker <:+: t) : applyPatches t = .ok t := by
  have h1 : patch1 t = .ok t := by rw [patch1, if_pos he]
  have h2 : patch2 t = .ok t := by rw [patch2, if_pos hd]
  have h3 : ∀ impl, patch3 impl t = .ok t := fun impl => by rw [patch3, if_pos hm]
  rw [applyPatches]
  cases hdet : detectVariant t with
  | error e =>
    exfalso
    rw [detectVariant] at hdet
    by_cases htake : takeMarker <:+: t
    · rw [if_pos htake] at hdet
      exact absurd hdet (by simp)
    · rw [if_neg htake, if_pos hes] at hdet
      exact absurd hdet (by simp)
  | ok v => simp only [hdet, h1, h2, h3]

/-- C2.  The patch applier is idempotent: whenever the first application of
the patcher succeeds, a second application detects the inserted entry
literal, the declaration line and the defined-function marker, performs no
insertion for any of the three patches, and returns the same buffer. -/
theorem patcher_idempotent (buf out : List Char) (h : applyPatches buf = .ok out) :
    applyPatches out = .ok out := by
  obtain ⟨hes, he, hd, hm⟩ := applyPatches_literals buf out h
  exact applyPatches_of_literals out hes he hd hm

/-- A minimal buffer containing the allocator marker and all three patch
anchors, on which the patcher succeeds. -/
def demoBuf : List Char :=
  ("gum_es_asset_new\nstatic const JSCFunctionListEntry gumjs_script_entries =\n\x7b\n\x7d;\nGUMJS_DECLARE_FUNCTION (gumjs_script_unbind_weak)\nGUMJS_DEFINE_FUNCTION (gumjs_script_unbind_weak)\n\x7b\nreturn;\n\x7d\n").toList

/-- The buffer produced by one successful application to `demoBuf`. -/
def demoOut : List Char := (applyPatches demoBuf).toOption.getD []

/-- Witness for C2 at a concrete buffer: re-applying the patcher to the
output of a successful run returns that output unchanged. -/
theorem patcher_idempotent_witness : applyPatches demoOut = .ok demoOut :=
  patcher_idempotent demoBuf demoOut (by rfl)

/-! ### Failure behaviour on missing anchors -/

/-- C6 counterexample.  A buffer lacking both the anchor literal and the
detection literal does not necessarily fail with the anchor-not-found error:
when it also lacks the allocator markers, variant detection aborts first
with `VariantUndetectable`, a different error of the taxonomy. -/
theorem anchorless_buffer_fails_variant_detection_first :
    applyPatches (("x").toList) = .error PatchErr.variantUndetectable ∧
      PatchErr.variantUndetectable ≠ PatchErr.entriesAnchorNotFound := by
  constructor
  · rfl
  · intro h
    exact PatchErr.noConfusion h

/-- C6 amended.  For every buffer on which variant detection succeeds (it
contains an allocator marker) but that lacks the `gumjs_script_entries`
anchor literal and does not already contain the entry detection literal, the
patcher fails with the anchor-not-found error; nothing is inserted and no
text is produced, so the original buffer is left unchanged. -/
theorem missing_anchor_fails_with_anchor_error (t : List Char)
    (hes : esMarker <:+: t) (hne : ¬ entryToAdd <:+: t)
    (hna : ¬ entriesMarker <:+: t) :
    applyPatches t = .error PatchErr.entriesAnchorNotFound := by
  have h1 : patch1 t = .error PatchErr.entriesAnchorNotFound := by
    rw [patch1, if_neg hne]
    cases hf : findSub entriesMarker t 0 with
    | none => rfl
    | some m => exact absurd (findSub_occurs entriesMarker t 0 m hf) hna
  rw [applyPatches]
  cases hdet : detectVariant t with
  | error e =>
    exfalso
    rw [detectVariant] at hdet
    by_cases htake : takeMarker <:+: t
    · rw [if_pos htake] at hdet
      exact absurd hdet (by simp)
    · rw [if_neg htake, if_pos hes] at hdet
      exact absurd hdet (by simp)
  | ok v => simp only [hdet, h1]

/-- Witness for the amended C6 at a concrete buffer that contains the
allocator marker but no anchor. -/
theorem missing_anchor_fails_with_anchor_error_witness :
    applyPatches (("gum_es_asset_new\n").toList) = .error PatchErr.entriesAnchorNotFound :=
  missing_anchor_fails_with_anchor_error (("gum_es_asset_new\n").toList)
    (by decide) (by decide) (by decide)

/-- C9.  Variant detection is order-sensitive on overlapping markers: a
buffer containing `gum_es_asset_new_take` always selects variant 2 (and such
a buffer necessarily contains `gum_es_asset_new` as well); variant 1 is
selected exactly when the buffer contains `gum_es_asset_new` but not
`gum_es_asset_new_take`; and detection fails when neither marker occurs. -/
theorem detect_variant_order_sensitive (t : List Char) :
    (takeMarker <:+: t → detectVariant t = .ok Variant.v2 ∧ esMarker <:+: t) ∧
      (detectVariant t = .ok Variant.v1 ↔ (esMarker <:+: t ∧ ¬ takeMarker <:+: t)) ∧
      (¬ esMarker <:+: t → detectVariant t = .error PatchErr.variantUndetectable) := by
  refine ⟨?_, ⟨?_, ?_⟩, ?_⟩
  · intro h
    rw [detectVariant, if_pos h]
    exact ⟨rfl, (esMarker_le_take.isInfix).trans h⟩
  · intro h
    rw [detectVariant] at h
    by_cases htake : takeMarker <:+: t
    · rw [if_pos htake] at h
      exact absurd (Except.ok.inj h) (by simp)
    · by_cases hes : esMarker <:+: t
      · exact ⟨hes, htake⟩
      · rw [if_neg htake, if_neg hes] at h
        exact absurd h (by simp)
  · rintro ⟨hes, htake⟩
    rw [detectVariant, if_neg htake, if_pos hes]
  · intro hes
    have htake : ¬ takeMarker <:+: t := fun hk => hes ((esMarker_le_take.isInfix).trans hk)
    rw [detectVariant, if_neg htake, if_neg hes]

/-- Witness for C9 on a concrete buffer containing the `_take` marker. -/
theorem detect_variant_order_sensitive_witness :
    detectVariant (("gum_es_asset_new_take(x)").toList) = .ok Variant.v2 ∧
      esMarker <:+: (("gum_es_asset_new_take(x)").toList) :=
  (detect_variant_order_sensitive (("gum_es_asset_new_take(x)").toList)).1 (by decide)

/-! ## Grouped permutation engine

Shallow embedding of `src/BatmanSecurer/patchers/shuffler.py`.  A table line
is a `List Char` (including its trailing newline, as produced by
`readlines()`).  The `random` module is an oracle `RSrc`; a single draw
counter is threaded through the run in program order, so one oracle value
fixes one complete sequence of draws.  `random.shuffle(bucket)` is modelled
by the drawn permutation `RSrc.shuf`, `random.random() > reorder_prob` by the
boolean draw `RSrc.coin`, `random.choice(anchors)` by `RSrc.rchoice` /
`RSrc.bchoice`, and `random.randint(0, len)` by `RSrc.rint`. -/

/-- ASCII whitespace of the regex class `\s`. -/
def isWsp (c : Char) : Bool :=
  c == ' ' || c == '\t' || c == '\n' || c == '\r' || c == '\x0b' || c == '\x0c'

/-- Word characters of the regex class `[A-Za-z0-9_]`. -/
def isWordChar (c : Char) : Bool :=
  (decide ('a' ≤ c) && decide (c ≤ 'z')) || (decide ('A' ≤ c) && decide (c ≤ 'Z')) ||
    (decide ('0' ≤ c) && decide (c ≤ '9')) || c == '_'

def defTok : List Char := ("DEF(").toList

/-- `extract_opcode`: match `^\s*DEF\(\s*([A-Za-z0-9_]+)` and return the
captured name. -/
def extractOpcode (line : List Char) : Option String :=
  let rest := line.dropWhile isWsp
  if defTok.isPrefixOf rest then
    let name := ((rest.drop 4).dropWhile isWsp).takeWhile isWordChar
    if name.isEmpty then none else some (String.mk name)
  else none

/-- `extract_opcode(line) in names` (with `None in names` being false). -/
def linePred (names : List String) (line : List Char) : Bool :=
  match extractOpcode line with
  | some n => names.contains n
  | none => false

/-- `opcode_index(lines)[op]`: the dict comprehension is keyed by name, so
for duplicate names the later (larger) index wins; this recursion prefers
the tail for the same reason. -/
def opIdx : List (List Char) → String → Option Nat
  | [], _ => none
  | l :: ls, op =>
    match opIdx ls op with
    | some i => some (i + 1)
    | none => if extractOpcode l == some op then some 0 else none

/-- One group of the `GROUPS` table. -/
structure OGroup where
  flatTargets : List String
  blocks : List (List String)
  reorderList : List String
  cca : List String
  ccb : List String

/-- The randomness drawn during a run, indexed by a draw counter. -/
structure RSrc where
  shuf : Nat → List (List Char) → List (List Char)
  coin : Nat → Bool
  rchoice : Nat → List Int → Int
  bchoice : Nat → List Nat → Nat
  rint : Nat → Nat → Nat

/-- Flat shuffle: collect the lines whose opcode is in `names` (in position
order), permute that bucket, and write the permuted bucket back into the
same positions. -/
def flatShuffle (r : RSrc) (names : List String) (st : List (List Char) × Nat) :
    List (List Char) × Nat :=
  (scatter (linePred names) st.1 (r.shuf st.2 (st.1.filter (linePred names))), st.2 + 1)

/-- The anchor candidates of the reorder step: current indices of the `cca`
members and current indices minus one of the `ccb` members (as integers,
since `idx_map[b] - 1` can be `-1`), collected from the table before the
pop. -/
def reorderAnchors (g : OGroup) (lines : List (List Char)) : List Int :=
  g.cca.filterMap (fun a => (opIdx lines a).map (fun i => (i : Int)))
    ++ g.ccb.filterMap (fun b => (opIdx lines b).map (fun i => (i : Int) - 1))

/-- One iteration of the reorder loop: with the drawn coin the opcode is
deferred to the fallback pool; otherwise it is popped and reinserted at a
drawn anchor position (its own index if no anchor resolves), clamped by
`max(0, min(insert_at, len(lines)))`. -/
def reorderOne (r : RSrc) (g : OGroup) (st : (List (List Char) × List String) × Nat)
    (op : String) : (List (List Char) × List String) × Nat :=
  if r.coin st.2 then ((st.1.1, st.1.2 ++ [op]), st.2 + 1)
  else
    match opIdx st.1.1 op with
    | none => ((st.1.1, st.1.2), st.2 + 1)
    | some cur =>
      if (reorderAnchors g st.1.1).isEmpty then
        ((List.insertIdx (min cur (st.1.1.eraseIdx cur).length) (st.1.1.getD cur [])
            (st.1.1.eraseIdx cur), st.1.2), st.2 + 1)
      else
        ((List.insertIdx
            ((max 0 (min (r.rchoice (st.2 + 1) (reorderAnchors g st.1.1))
              ((st.1.1.eraseIdx cur).length : Int))).toNat)
            (st.1.1.getD cur []) (st.1.1.eraseIdx cur), st.1.2), st.2 + 2)

/-- Block relocation: pop the block members (descending index order), then
reinsert them contiguously at a drawn anchor position, or at
`randint(0, len(lines))` when no anchor resolves. -/
def relocateBlock (r : RSrc) (g : OGroup) (st : List (List Char) × Nat)
    (block : List String) : List (List Char) × Nat :=
  let lines := st.1
  let k := st.2
  let idxs := block.filterMap (opIdx lines)
  let blockLines := idxs.map (fun i => lines.getD i [])
  let lines1 := (List.insertionSort (· ≥ ·) idxs).foldl
    (fun acc i => acc.eraseIdx i) lines
  let anchors : List Nat :=
    g.cca.filterMap (fun a => (opIdx lines1 a).map (fun i => i + 1))
      ++ g.ccb.filterMap (opIdx lines1)
  if anchors.isEmpty then
    (spliceAt lines1 (r.rint k lines1.length) blockLines, k + 1)
  else
    (spliceAt lines1 (r.bchoice k anchors) blockLines, k + 1)

/-- One group: flat shuffle, reorder loop (accumulating the fallback pool),
fallback flat shuffle, block relocations — in this fixed order. -/
def groupStep (r : RSrc) (st : List (List Char) × Nat) (g : OGroup) :
    List (List Char) × Nat :=
  let st1 := flatShuffle r g.flatTargets st
  let st2 := g.reorderList.foldl (reorderOne r g) ((st1.1, []), st1.2)
  let st3 := flatShuffle r st2.1.2 (st2.1.1, st2.2)
  g.blocks.foldl (relocateBlock r g) st3

/-- The `GROUPS` constant of `shuffler.py`, with each mixed `targets` list
split, in order, into plain shuffle targets (`flatTargets`) and relocation
blocks (`blocks`), exactly as the processing loop splits it
(`normal_targets` / `relocate_blocks`).  The `ccb`/`cca` sets are listed in
source order; the engine only tests membership and collects one anchor per
member, so set iteration order never changes the anchor sets.  The
`reorder_prob` field only feeds the comparison `random.random() > prob`,
which is modelled by the boolean draw `RSrc.coin`. -/
def GROUPS : List OGroup :=
  [
  { flatTargets := ["push_i32", "push_atom_value", "private_symbol", "undefined", "null", "push_this", "push_false", "push_true", "object", "special_object", "rest", "sub", "mod", "nip1", "dup", "dup1", "dup2", "dup3", "insert2", "insert3", "insert4", "perm3", "perm4", "perm5", "swap", "swap2", "rot3l", "rot3r", "rot4l", "rot5l", "apply", "return", "return_undef", "check_ctor_return", "check_ctor", "check_brand", "add_brand", "return_async", "throw", "throw_error", "eval", "apply_eval", "regexp", "get_super", "import", "get_ref_value", "put_ref_value", "define_var", "dec_loc", "inc_loc", "add_loc", "not", "lnot", "typeof", "delete", "delete_var", "drop", "nip", "add", "div", "mul", "pow", "shl", "sar", "shr", "lt", "lte", "gt", "gte", "instanceof", "in", "eq", "neq", "strict_eq", "strict_neq", "and", "xor", "or", "is_undefined_or_null", "private_in"],
    blocks := [["check_define_var", "define_func", "get_field", "get_field2", "put_field", "get_private_field"],
      ["put_private_field", "define_private_field", "get_array_el", "get_array_el2", "put_array_el", "get_super_value"],
      ["put_super_value", "define_field", "set_name", "set_name_computed", "set_proto", "set_home_object"],
      ["define_array_el", "append", "copy_data_properties", "define_class_computed", "to_object", "to_propkey"],
      ["post_dec", "post_inc"]],
    reorderList := [],
    cca := ["fclosure", "array_from", "put_var_strict", "set_var_ref", "nip_catch", "put_var_ref_check_init", "with_get_ref_undef"],
    ccb := ["push_const", "call_constructor", "check_var", "get_loc", "if_false", "with_get_var"] },
  { flatTargets := ["mul_pow10", "math_mod"],
    blocks := [],
    reorderList := [],
    cca := [],
    ccb := [] },
  { flatTargets := ["get_length", "goto16", "is_undefined", "is_null", "typeof_is_undefined", "typeof_is_function"],
    blocks := [["push_minus1", "push_0", "push_1", "push_2", "push_3", "push_4", "push_5", "push_6", "push_7"],
      ["get_loc8", "put_loc8", "set_loc8"],
      ["get_loc0", "get_loc1", "get_loc2", "get_loc3"],
      ["put_loc0", "put_loc1", "put_loc2", "put_loc3"],
      ["set_loc0", "set_loc1", "set_loc2", "set_loc3"],
      ["get_arg0", "get_arg1", "get_arg2", "get_arg3"],
      ["put_arg0", "put_arg1", "put_arg2", "put_arg3"],
      ["set_arg0", "set_arg1", "set_arg2", "set_arg3"],
      ["get_var_ref0", "get_var_ref1", "get_var_ref2", "get_var_ref3"],
      ["put_var_ref0", "put_var_ref1", "put_var_ref2", "put_var_ref3"],
      ["set_var_ref0", "set_var_ref1", "set_var_ref2", "set_var_ref3"],
      ["call0", "call1", "call2", "call3"]],
    reorderList := [],
    cca := ["goto8", "fclosure8"],
    ccb := ["if_false8", "push_const8"] }]

/-- The whole group-processing phase (every group in order, one shared draw
counter). -/
def runGroups (r : RSrc) (lines : List (List Char)) : List (List Char) :=
  (GROUPS.foldl (groupStep r) (lines, 0)).1

/-! ### Comment-normalization post-pass -/

/-- The block-comment opening token, the string `/*`. -/
def opCmt : List Char := ['/', '*']

/-- The block-comment closing token, the string `*/`. -/
def clCmt : List Char := ['*', '/']

def hasOpen (l : List Char) : Bool := decide (opCmt <:+: l)

def hasClose (l : List Char) : Bool := decide (clCmt <:+: l)

/-- `line.rstrip("\n")`. -/
def rstripNl (l : List Char) : List Char :=
  (l.reverse.dropWhile (fun c => c == '\n')).reverse

/-- The synthetic closer line `" */\n"` appended by the fixup pass. -/
def closerLine : List Char := (" */\n").toList

/-- The synthetic opener `"/* "` prepended to an orphaned closer line. -/
def openPref : List Char := ("/* ").toList

def hashTok : List Char := ['#']

/-- `re.match(r"^\s*DEF\(", l)`. -/
def isDefLine (l : List Char) : Bool := defTok.isPrefixOf (l.dropWhile isWsp)

/-- `re.match(r"^\s*#", l)`. -/
def isDirective (l : List Char) : Bool := hashTok.isPrefixOf (l.dropWhile isWsp)

/-- The per-line transformation: strip trailing newlines, then prepend the
synthetic opener when the line has a closing token without an opening token
while no comment is open. -/
def fixedLine (inside : Bool) (line : List Char) : List Char :=
  if hasClose (rstripNl line) && !hasOpen (rstripNl line) && !inside then
    openPref ++ rstripNl line
  else rstripNl line

/-- The comment-state update performed by steps 3 and 4 of the loop body:
entering an open comment sets the flag, any closing token clears it. -/
def nextInside (b : Bool) (l : List Char) : Bool :=
  if hasClose l then false
  else if hasOpen l && !hasClose l then true
  else b

/-- `fix_multiline_trailing_comments`: forward scan with an `inside_comment`
flag; a definition or directive line seen while a comment is open first emits
the synthetic closer `" */\n"`; a still-open comment at the end of input
emits a final closer. -/
def fixLoop : Bool → List (List Char) → List (List Char)
  | inside, [] => if inside then [closerLine] else []
  | inside, line :: rest =>
    if inside && (isDefLine (fixedLine inside line) || isDirective (fixedLine inside line)) then
      closerLine :: (fixedLine inside line ++ nlTok) ::
        fixLoop (nextInside false (fixedLine inside line)) rest
    else
      (fixedLine inside line ++ nlTok) ::
        fixLoop (nextInside inside (fixedLine inside line)) rest

/-- The post-pass as called by the script (initial flag `False`). -/
def fixComments (lines : List (List Char)) : List (List Char) := fixLoop false lines

/-- The full run of the shuffler on one table: all groups, then the
comment-normalization post-pass. -/
def fullShuffleRun (r : RSrc) (lines : List (List Char)) : List (List Char) :=
  fixComments (runGroups r lines)

/-- The two-line table of Scenario C: `"/* note\nDEF(x,1)\n"` split by
`readlines()`. -/
def demoCmtLines : List (List Char) := [("/* note\n").toList, ("DEF(x,1)\n").toList]

/-- C8 counterexample.  On the Scenario-C input the fixup pass does NOT
yield `"/* note */\nDEF(x,1)\n"`: the synthetic closer is emitted as a line
of its own, not appended to the comment line. -/
theorem fixup_scenario_c_not_as_claimed :
    fixComments demoCmtLines ≠ [("/* note */\n").toList, ("DEF(x,1)\n").toList] := by
  decide

/-- C8 amended.  On the Scenario-C input the fixup pass yields
`"/* note\n */\nDEF(x,1)\n"`: the synthetic closer `" */"` is inserted as
its own line between the comment line and the definition line, and no other
line changes. -/
theorem fixup_scenario_c_actual :
    fixComments demoCmtLines
      = [("/* note\n").toList, (" */\n").toList, ("DEF(x,1)\n").toList] := by
  decide

/-! ### The output never ends inside an open comment -/

/-- The comment-state scanner used to express "the line list ends inside an
unclosed block comment": the same update rule the fixup loop applies (a
closing token clears the flag, an opening token without a closer sets it). -/
def scanUpd (b : Bool) (line : List Char) : Bool :=
  if hasClose line then false
  else if hasOpen line then true
  else b

def scanOpen (b : Bool) (lines : List (List Char)) : Bool := lines.foldl scanUpd b

theorem scanUpd_eq_nextInside (b : Bool) (l : List Char) :
    scanUpd b l = nextInside b l := by
  rw [scanUpd, nextInside]
  cases hcl : hasClose l <;> cases hop : hasOpen l <;> simp [hcl, hop]

/-- A two-character token whose second character differs from `x` occurs in
`l ++ [x]` iff it occurs in `l`. -/
theorem pair_infix_append_singleton (c0 c1 x : Char) (hx : c1 ≠ x) (l : List Char) :
    ([c0, c1] <:+: l ++ [x]) ↔ ([c0, c1] <:+: l) := by
  constructor
  · rintro ⟨u, v, huv⟩
    rcases v.eq_nil_or_concat with rfl | ⟨v', a, rfl⟩
    · exfalso
      have h2 : (u ++ [c0]).concat c1 = l.concat x := by
        rw [List.concat_eq_append, List.concat_eq_append, ← huv]
        simp
      exact hx (List.concat_inj.1 h2).2
    · have h2 : (u ++ [c0, c1] ++ v').concat a = l.concat x := by
        rw [List.concat_eq_append, List.concat_eq_append, ← huv]
        simp
      obtain ⟨hl, _⟩ := List.concat_inj.1 h2
      exact ⟨u, v', hl⟩
  · rintro ⟨u, v, huv⟩
    exact ⟨u, v ++ [x], by rw [← huv]; simp⟩

theorem hasOpen_append_nl (l : List Char) : hasOpen (l ++ nlTok) = hasOpen l := by
  rw [hasOpen, hasOpen]
  exact decide_eq_decide.2 (pair_infix_append_singleton '/' '*' '\n' (by decide) l)

theorem hasClose_append_nl (l : List Char) : hasClose (l ++ nlTok) = hasClose l := by
  rw [hasClose, hasClose]
  exact decide_eq_decide.2 (pair_infix_append_singleton '*' '/' '\n' (by decide) l)

theorem scanUpd_append_nl (b : Bool) (l : List Char) :
    scanUpd b (l ++ nlTok) = scanUpd b l := by
  rw [scanUpd, scanUpd, hasOpen_append_nl, hasClose_append_nl]

theorem scanUpd_closer (b : Bool) : scanUpd b closerLine = false := by
  rw [scanUpd]
  have h : hasClose closerLine = true := by decide
  rw [h]
  simp

/-- C10.  The comment-fixup pass never leaves a block comment open at the
end of its output: re-scanning the returned line list with the comment-state
rule always ends with the flag cleared (a final synthetic `" */"` line is
appended whenever the forward scan reaches the end still inside a comment). -/
theorem fixup_never_ends_open :
    ∀ (ls : List (List Char)), scanOpen false (fixComments ls) = false := by
  have main : ∀ (ls : List (List Char)) (b : Bool), scanOpen b (fixLoop b ls) = false := by
    intro ls
    induction ls with
    | nil =>
      intro b
      cases b
      · rfl
      · rw [show fixLoop true [] = [closerLine] from rfl]
        rw [scanOpen, List.foldl_cons, List.foldl_nil, scanUpd_closer]
    | cons line rest ih =>
      intro b
      rw [fixLoop]
      split
      · next hemit =>
        have hb : b = true := by
          cases b
          · simp at hemit
          · rfl
        subst hb
        rw [scanOpen, List.foldl_cons, List.foldl_cons, scanUpd_closer,
          scanUpd_append_nl, scanUpd_eq_nextInside]
        exact ih (nextInside false (fixedLine true line))
      · rw [scanOpen, List.foldl_cons, scanUpd_append_nl, scanUpd_eq_nextInside]
        exact ih (nextInside b (fixedLine b line))
  exact fun ls => main ls false

/-! ### The group phase preserves the multiset of lines -/

theorem opIdx_lt : ∀ (lines : List (List Char)) (op : String) (i : Nat),
    opIdx lines op = some i → i < lines.length := by
  intro lines
  induction lines with
  | nil => intro op i h; exact absurd h (by simp [opIdx])
  | cons l ls ih =>
    intro op i h
    rw [opIdx] at h
    split at h
    · next j hj =>
      have := ih op j hj
      have hi := Option.some.inj h
      simp only [List.length_cons]
      omega
    · split at h
      · have hi := Option.some.inj h
        simp only [List.length_cons]
        omega
      · exact absurd h (by simp)

theorem opIdx_getD : ∀ (lines : List (List Char)) (op : String) (i : Nat),
    opIdx lines op = some i → extractOpcode (lines.getD i []) = some op := by
  intro lines
  induction lines with
  | nil => intro op i h; exact absurd h (by simp [opIdx])
  | cons l ls ih =>
    intro op i h
    rw [opIdx] at h
    split at h
    · next j hj =>
      have hi := Option.some.inj h
      subst hi
      simpa using ih op j hj
    · split at h
      · next hbeq =>
        have hi := Option.some.inj h
        subst hi
        simpa using eq_of_beq hbeq
      · exact absurd h (by simp)

theorem flatShuffle_perm (r : RSrc) (hshuf : ∀ k l, (r.shuf k l).Perm l)
    (names : List String) (st : List (List Char) × Nat) :
    ((flatShuffle r names st).1).Perm st.1 := by
  rw [flatShuffle]
  exact scatter_perm _ _ _ (hshuf st.2 _)

theorem reorderOne_perm (r : RSrc) (g : OGroup)
    (st : (List (List Char) × List String) × Nat) (op : String) :
    ((reorderOne r g st op).1.1).Perm st.1.1 := by
  rw [reorderOne]
  split
  · exact List.Perm.refl _
  · split
    · exact List.Perm.refl _
    · next cur hcur =>
      have hlt : cur < st.1.1.length := opIdx_lt _ _ _ hcur
      have hperm := perm_getD_cons_eraseIdx st.1.1 cur hlt
      split
      · refine List.Perm.trans ?_ hperm.symm
        refine List.perm_insertIdx _ _ ?_
        exact Nat.min_le_right _ _
      · refine List.Perm.trans ?_ hperm.symm
        refine List.perm_insertIdx _ _ ?_
        have h1 : max 0 (min (r.rchoice (st.2 + 1) (reorderAnchors g st.1.1))
            ((st.1.1.eraseIdx cur).length : Int))
            ≤ ((st.1.1.eraseIdx cur).length : Int) := by
          omega
        exact Int.toNat_le.2 h1

theorem foldl_reorder_perm (r : RSrc) (g : OGroup) :
    ∀ (ops : List String) (st : (List (List Char) × List String) × Nat),
      ((ops.foldl (reorderOne r g) st).1.1).Perm st.1.1 := by
  intro ops
  induction ops with
  | nil => intro st; exact List.Perm.refl _
  | cons op ops ih =>
    intro st
    rw [List.foldl_cons]
    exact (ih (reorderOne r g st op)).trans (reorderOne_perm r g st op)

theorem relocateBlock_perm (r : RSrc) (g : OGroup) (st : List (List Char) × Nat)
    (block : List String) (hnd : block.Nodup) :
    ((relocateBlock r g st block).1).Perm st.1 := by
  rw [relocateBlock]
  have hinj : ∀ (a a' : String), ∀ b ∈ opIdx st.1 a, b ∈ opIdx st.1 a' → a = a' := by
    intro a a' b hb hb'
    rw [Option.mem_def] at hb hb'
    have h1 := opIdx_getD st.1 a b hb
    have h2 := opIdx_getD st.1 a' b hb'
    rw [h1] at h2
    exact Option.some.inj h2
  have hnd_idx : (block.filterMap (opIdx st.1)).Nodup := List.Nodup.filterMap hinj hnd
  have hmem : ∀ i ∈ block.filterMap (opIdx st.1), i < st.1.length := by
    intro i hi
    obtain ⟨a, _, ha⟩ := List.mem_filterMap.1 hi
    exact opIdx_lt _ _ _ ha
  have hsortperm : (List.insertionSort (· ≥ ·) (block.filterMap (opIdx st.1))).Perm
      (block.filterMap (opIdx st.1)) :=
    List.perm_insertionSort _ _
  have hnd_sort := hsortperm.symm.nodup hnd_idx
  have hmem_sort : ∀ i ∈ List.insertionSort (· ≥ ·) (block.filterMap (opIdx st.1)),
      i < st.1.length :=
    fun i hi => hmem i (hsortperm.mem_iff.1 hi)
  have hge : (List.insertionSort (· ≥ ·) (block.filterMap (opIdx st.1))).Pairwise
      (· ≥ ·) :=
    List.sorted_insertionSort _ _
  have hgt : (List.insertionSort (· ≥ ·) (block.filterMap (opIdx st.1))).Pairwise
      (· > ·) := by
    have hne : (List.insertionSort (· ≥ ·) (block.filterMap (opIdx st.1))).Pairwise
        (· ≠ ·) := hnd_sort
    exact (hge.and hne).imp (fun hab => by omega)
  have herase := foldl_eraseIdx_perm
    (List.insertionSort (· ≥ ·) (block.filterMap (opIdx st.1))) st.1
    hgt hmem_sort
  have hmap : ((List.insertionSort (· ≥ ·) (block.filterMap (opIdx st.1))).map
        (fun i => st.1.getD i [])).Perm
      ((block.filterMap (opIdx st.1)).map (fun i => st.1.getD i [])) :=
    hsortperm.map _
  split
  · refine (spliceAt_perm _ _ _).trans ?_
    exact ((hmap.symm.append_right _).trans herase)
  · refine (spliceAt_perm _ _ _).trans ?_
    exact ((hmap.symm.append_right _).trans herase)

theorem foldl_relocate_perm (r : RSrc) (g : OGroup) :
    ∀ (blocks : List (List String)) (st : List (List Char) × Nat),
      (∀ blk ∈ blocks, blk.Nodup) →
      ((blocks.foldl (relocateBlock r g) st).1).Perm st.1 := by
  intro blocks
  induction blocks with
  | nil => intro st _; exact List.Perm.refl _
  | cons blk blocks ih =>
    intro st hnd
    rw [List.foldl_cons]
    refine (ih (relocateBlock r g st blk) ?_).trans
      (relocateBlock_perm r g st blk (hnd blk (by simp)))
    intro b hb
    exact hnd b (by simp [hb])

theorem groupStep_eq (r : RSrc) (st : List (List Char) × Nat) (g : OGroup) :
    groupStep r st g =
      g.blocks.foldl (relocateBlock r g)
        (flatShuffle r
          (g.reorderList.foldl (reorderOne r g)
            (((flatShuffle r g.flatTargets st).1, []),
              (flatShuffle r g.flatTargets st).2)).1.2
          ((g.reorderList.foldl (reorderOne r g)
            (((flatShuffle r g.flatTargets st).1, []),
              (flatShuffle r g.flatTargets st).2)).1.1,
            (g.reorderList.foldl (reorderOne r g)
              (((flatShuffle r g.flatTargets st).1, []),
                (flatShuffle r g.flatTargets st).2)).2)) := rfl

theorem groupStep_perm (r : RSrc) (hshuf : ∀ k l, (r.shuf k l).Perm l)
    (st : List (List Char) × Nat) (g : OGroup)
    (hnd : ∀ blk ∈ g.blocks, blk.Nodup) :
    ((groupStep r st g).1).Perm st.1 := by
  rw [groupStep_eq]
  refine (foldl_relocate_perm r g g.blocks _ hnd).trans ?_
  refine (flatShuffle_perm r hshuf _ _).trans ?_
  refine (foldl_reorder_perm r g g.reorderList
    (((flatShuffle r g.flatTargets st).1, []),
      (flatShuffle r g.flatTargets st).2)).trans ?_
  exact flatShuffle_perm r hshuf g.flatTargets st

theorem foldl_groupStep_perm (r : RSrc) (hshuf : ∀ k l, (r.shuf k l).Perm l) :
    ∀ (gs : List OGroup) (st : List (List Char) × Nat),
      (∀ g ∈ gs, ∀ blk ∈ g.blocks, blk.Nodup) →
      ((gs.foldl (groupStep r) st).1).Perm st.1 := by
  intro gs
  induction gs with
  | nil => intro st _; exact List.Perm.refl _
  | cons g gs ih =>
    intro st hnd
    rw [List.foldl_cons]
    refine (ih (groupStep r st g) ?_).trans
      (groupStep_perm r hshuf st g (hnd g (by simp)))
    intro g' hg' blk hblk
    exact hnd g' (by simp [hg']) blk hblk

theorem GROUPS_blocks_nodup : ∀ g ∈ GROUPS, ∀ blk ∈ g.blocks, blk.Nodup := by
  decide

/-- The group-processing phase permutes the table lines. -/
theorem runGroups_perm (r : RSrc) (hshuf : ∀ k l, (r.shuf k l).Perm l)
    (lines : List (List Char)) : (runGroups r lines).Perm lines :=
  foldl_groupStep_perm r hshuf GROUPS (lines, 0) GROUPS_blocks_nodup

/-- C3 amended.  For every input table and every sequence of random draws,
the group-processing phase (all flat shuffles, constrained reorders,
fallback shuffles and block relocations) preserves the multiset — hence the
set — of definition names and the total line count.  The
comment-normalization post-pass does not share this guarantee: it can add
synthetic closer lines, so the full run only preserves these quantities up
to that repair (see the counterexample). -/
theorem group_phase_preserves_names_and_length (r : RSrc)
    (hshuf : ∀ k l, (r.shuf k l).Perm l) (lines : List (List Char)) :
    ((runGroups r lines).filterMap extractOpcode).Perm (lines.filterMap extractOpcode) ∧
      (∀ n : String, n ∈ (runGroups r lines).filterMap extractOpcode ↔
        n ∈ lines.filterMap extractOpcode) ∧
      (runGroups r lines).length = lines.length := by
  have hperm := runGroups_perm r hshuf lines
  exact ⟨hperm.filterMap _, fun n => (hperm.filterMap extractOpcode).mem_iff,
    hperm.length_eq⟩

/-- The trivial draw sequence: every shuffle returns its input order, every
coin defers, every index draw is 0. -/
def idRSrc : RSrc where
  shuf := fun _ l => l
  coin := fun _ => true
  rchoice := fun _ _ => 0
  bchoice := fun _ _ => 0
  rint := fun _ _ => 0

/-- Witness for the amended C3 at the trivial draw sequence and a concrete
two-line table. -/
theorem group_phase_preserves_witness :
    ((runGroups idRSrc demoCmtLines).filterMap extractOpcode).Perm
        (demoCmtLines.filterMap extractOpcode) ∧
      (∀ n : String, n ∈ (runGroups idRSrc demoCmtLines).filterMap extractOpcode ↔
        n ∈ demoCmtLines.filterMap extractOpcode) ∧
      (runGroups idRSrc demoCmtLines).length = demoCmtLines.length :=
  group_phase_preserves_names_and_length idRSrc (fun _ l => List.Perm.refl l) demoCmtLines

/-- C3 counterexample.  With the comment-normalization post-pass included —
as the claim demands — the line count is NOT preserved: on the two-line
table `["/* note\n", "DEF(x,1)\n"]` the full run (with a realizable draw
sequence) produces three lines, because the post-pass inserts a synthetic
`" */"` line. -/
theorem full_run_length_not_preserved :
    ¬ ((fullShuffleRun idRSrc demoCmtLines).length = demoCmtLines.length) := by
  decide
